import Mathlib

/-!
Shallow embedding of the craftsman-coverage analyzer (files
`google_sheets_analyzer.py` and `craftsman_coverage_analyzer.py`).

Strings from the Python code are modelled as `List Char`; Python
`list(set(xs))` is modelled as `xs.dedup` (the set-level content is what the
specification talks about, and CPython's iteration order of a freshly built
set is not part of the program's contract); Python `dict`s that are built by
insertion are modelled as insertion-ordered association lists; Python floats
appear only in `coverage_percentage`, modelled as `ℚ`.
-/

/-! ## Character-level helpers (models of Python's character classes) -/

/-- The uppercase→lowercase pairs used to model Python's `str.lower` for the
characters that occur in this corpus (ASCII letters plus German umlauts;
all other characters are fixed points, as in `str.lower`). -/
def lowerPairs : List (Char × Char) :=
  [('A', 'a'), ('B', 'b'), ('C', 'c'), ('D', 'd'), ('E', 'e'), ('F', 'f'),
   ('G', 'g'), ('H', 'h'), ('I', 'i'), ('J', 'j'), ('K', 'k'), ('L', 'l'),
   ('M', 'm'), ('N', 'n'), ('O', 'o'), ('P', 'p'), ('Q', 'q'), ('R', 'r'),
   ('S', 's'), ('T', 't'), ('U', 'u'), ('V', 'v'), ('W', 'w'), ('X', 'x'),
   ('Y', 'y'), ('Z', 'z'), ('Ä', 'ä'), ('Ö', 'ö'), ('Ü', 'ü')]

/-- Model of Python `str.lower` on a single character. -/
def pyLower (c : Char) : Char :=
  match lowerPairs.find? (fun p => p.1 == c) with
  | some p => p.2
  | none => c

/-- Model of the regex class `\s` (and of `str.strip`'s whitespace):
the ASCII whitespace characters plus NBSP. -/
def pyIsSpace (c : Char) : Bool :=
  c == ' ' || c == '\t' || c == '\n' || c == '\r' ||
    c == '\x0b' || c == '\x0c' || c == ' '

/-- Model of the regex class `\w` (word characters): ASCII alphanumerics,
underscore, and the German letters that occur in this corpus. -/
def pyIsWord (c : Char) : Bool :=
  c.isAlphanum || c == '_' ||
    c == 'ä' || c == 'ö' || c == 'ü' || c == 'Ä' || c == 'Ö' || c == 'Ü' ||
    c == 'ß' || c == 'é' || c == 'è' || c == 'à'

/-- The dash-like glyphs of the range regex `[-–—]` in
`FormatLearner.extract_numbers`. -/
def isDashC (c : Char) : Bool :=
  c == '-' || c == '–' || c == '—'

/-! ## List-of-characters primitives (models of Python string operations) -/

/-- `spanD p s` splits `s` into its longest prefix of characters satisfying
`p` and the remainder (the possessive reading of a leading `p*`/`p+` in the
regexes below, which is exact for them because no backtracking into the
run can ever succeed). -/
def spanD (p : Char → Bool) : List Char → List Char × List Char
  | [] => ([], [])
  | c :: rest =>
    if p c then
      let r := spanD p rest
      (c :: r.1, r.2)
    else ([], c :: rest)

/-- Model of Python `str.strip()`: drop leading and trailing whitespace. -/
def pyStrip (s : List Char) : List Char :=
  ((s.dropWhile pyIsSpace).reverse.dropWhile pyIsSpace).reverse

/-- Index of the first occurrence of `sub` in `s` (the search underlying
Python's `in` operator and `str.split`). -/
def findSub (sub : List Char) : List Char → Option Nat
  | [] => if sub.isEmpty then some 0 else none
  | c :: rest =>
    if sub.isPrefixOf (c :: rest) then some 0
    else (findSub sub rest).map (· + 1)

/-- Model of Python's substring containment `sub in s`. -/
def substrB (sub s : List Char) : Bool :=
  (findSub sub s).isSome

/-- Worker for `splitOnSub`: walks the text once; `skipN` counts separator
characters still to be consumed after a separator occurrence was found,
`acc` is the current (reversed) chunk. -/
def splitGo (sep : List Char) : List Char → Nat → List Char → List (List Char)
  | [], _, acc => [acc.reverse]
  | _ :: rest, n + 1, acc => splitGo sep rest n acc
  | c :: rest, 0, acc =>
    if sep.isPrefixOf (c :: rest) then
      acc.reverse :: splitGo sep rest (sep.length - 1) []
    else splitGo sep rest 0 (c :: acc)

/-- Model of Python `str.split(sep)` / `re.split(re.escape(sep), s)` for a
non-empty separator: split on non-overlapping occurrences, left to right. -/
def splitOnSub (sep text : List Char) : List (List Char) :=
  splitGo sep text 0 []

/-- Model of Python `str.replace(pat, repl)`: replace all non-overlapping
occurrences, left to right. -/
def replaceSub (pat repl s : List Char) : List Char :=
  List.intercalate repl (splitOnSub pat s)

/-- Worker for `digitRuns`; `cur` is the (reversed) digit run in progress. -/
def digitRunsAux : List Char → List Char → List (List Char)
  | cur, [] => if cur.isEmpty then [] else [cur.reverse]
  | cur, c :: rest =>
    if c.isDigit then digitRunsAux (c :: cur) rest
    else if cur.isEmpty then digitRunsAux [] rest
    else cur.reverse :: digitRunsAux [] rest

/-- Model of `re.findall(r'(\d+)', s)`: the maximal runs of decimal digits
of `s`, in order. -/
def digitRuns (s : List Char) : List (List Char) :=
  digitRunsAux [] s

/-- Model of Python `int(...)` on a digit string. -/
def digitsToNat (s : List Char) : Nat :=
  s.foldl (fun a c => 10 * a + (c.toNat - 48)) 0

/-! ## FormatLearner.extract_numbers -/

/-- One attempt of the range regex `(\d+)\s*[-–—]\s*(\d+)` anchored at the
current position: a digit run, optional whitespace, a dash-like glyph,
optional whitespace, a digit run. -/
def tryRangeAt (s : List Char) : Option (Nat × Nat) :=
  let p1 := spanD Char.isDigit s
  if p1.1.isEmpty then none
  else
    match p1.2.dropWhile pyIsSpace with
    | [] => none
    | g :: s3 =>
      if isDashC g then
        let p2 := spanD Char.isDigit (s3.dropWhile pyIsSpace)
        if p2.1.isEmpty then none else some (digitsToNat p1.1, digitsToNat p2.1)
      else none

/-- Model of `re.search(r'(\d+)\s*[-–—]\s*(\d+)', text)`: the leftmost
match of the range pattern, returned as the two parsed integers. -/
def findRange : List Char → Option (Nat × Nat)
  | [] => none
  | c :: rest =>
    match tryRangeAt (c :: rest) with
    | some p => some p
    | none => findRange rest

/-- The digit runs of `s` that have at most 3 digits (the filtered
`re.findall(r'(\d+)', s)` used by the slash rule and the fallback). -/
def shortNums (s : List Char) : List (List Char) :=
  (digitRuns s).filter (fun m => m.length ≤ 3)

/-- The numbers collected by the slash rule of `extract_numbers`: for every
`'/'`-split part, all digit runs of at most 3 digits, concatenated in order. -/
def slashCollect (text : List Char) : List (List Char) :=
  ((splitOnSub ['/'] text).map shortNums).flatten

/-- The learner state `FormatLearner.number_separators`: a Python dict from
separator string to observed frequency, modelled as an insertion-ordered
association list. -/
abbrev SepTable := List (List Char × Nat)

/-- Stable insertion (descending by count) used to model Python's
`sorted(items, key=lambda x: x[1], reverse=True)`: ties keep the original
(insertion) order, which is exactly what a stable descending sort does. -/
def insertDesc (x : List Char × Nat) : SepTable → SepTable
  | [] => [x]
  | y :: ys => if y.2 ≤ x.2 then x :: y :: ys else y :: insertDesc x ys

/-- Stable sort of the separator table by descending frequency. -/
def sortDesc (t : SepTable) : SepTable :=
  t.foldr insertDesc []

/-- For each part of the `sep`-split of `text`, the first digit run, kept
only when it has at most 3 digits (`re.search(r'(\d+)', part)` plus the
length guard), concatenated in part order. -/
def partFirsts (sep text : List Char) : List (List Char) :=
  (splitOnSub sep text).foldr
    (fun part acc =>
      match (digitRuns part).head? with
      | some m => if m.length ≤ 3 then m :: acc else acc
      | none => acc)
    []

/-- The loop over learned separators in `extract_numbers` (descending
frequency): the first separator that occurs in `text` and is not `'/'` and
yields a non-empty number list determines the result. -/
def learnedLoop : SepTable → List Char → Option (List (List Char))
  | [], _ => none
  | e :: rest, text =>
    if substrB e.1 text && !(e.1 == ['/']) then
      let numbers := partFirsts e.1 text
      if numbers.isEmpty then learnedLoop rest text else some numbers.dedup
    else learnedLoop rest text

/-- Model of `FormatLearner.extract_numbers`: range rule, then slash rule,
then learned separators by descending frequency, then the generic fallback. -/
def extract (st : SepTable) (text : List Char) : List (List Char) :=
  match findRange text with
  | some (a, b) => (List.range' a (b + 1 - a)).map (fun n => (Nat.repr n).data)
  | none =>
    let slashNums := if text.contains '/' then slashCollect text else []
    if !slashNums.isEmpty then slashNums.dedup
    else
      match learnedLoop (sortDesc st) text with
      | some res => res
      | none => (shortNums text).dedup

/-! ## FormatLearner.learn_from_service_areas

The two regex passes of `learn_from_service_areas` are embedded with a fuel
argument (the call sites supply `length + 1`, which is always sufficient
because every recursive step consumes at least one character). -/

/-- One match of `\d+(?:[^\d\w]+\d+)*` starting at a digit: the matched
sequence and the rest of the input. -/
def grabSeqF : Nat → List Char → List Char × List Char
  | 0, s => ([], s)
  | fuel + 1, s =>
    let d := (spanD Char.isDigit s).1
    let r := (spanD Char.isDigit s).2
    if d.isEmpty then ([], s)
    else
      let sep := (spanD (fun c => !pyIsWord c) r).1
      let r2 := (spanD (fun c => !pyIsWord c) r).2
      if sep.isEmpty then (d, r)
      else
        match r2 with
        | [] => (d, r)
        | c :: r3 =>
          if c.isDigit then
            let q := grabSeqF fuel (c :: r3)
            (d ++ sep ++ q.1, q.2)
          else (d, r)

/-- Worker for `numSeqs`. -/
def numSeqsF : Nat → List Char → List (List Char)
  | 0, _ => []
  | fuel + 1, s =>
    match s with
    | [] => []
    | c :: rest =>
      if c.isDigit then
        let g := grabSeqF (c :: rest).length (c :: rest)
        g.1 :: numSeqsF fuel g.2
      else numSeqsF fuel rest

/-- Model of `re.findall(r'(\d+(?:[^\d\w]+\d+)*)', area)`. -/
def numSeqs (s : List Char) : List (List Char) :=
  numSeqsF (s.length + 1) s

/-- Worker for `sepsIn`. -/
def sepsInF : Nat → List Char → List (List Char)
  | 0, _ => []
  | fuel + 1, s =>
    match s with
    | [] => []
    | c :: rest =>
      if c.isDigit then
        let r := (spanD Char.isDigit (c :: rest)).2
        let sep := (spanD (fun x => !pyIsWord x) r).1
        let r2 := (spanD (fun x => !pyIsWord x) r).2
        if sep.isEmpty then sepsInF fuel rest
        else
          match r2 with
          | [] => sepsInF fuel rest
          | d :: r3 =>
            if d.isDigit then sep :: sepsInF fuel (d :: r3)
            else sepsInF fuel rest
      else sepsInF fuel rest

/-- Model of `re.findall(r'\d+([^\d\w]+)(?=\d)', seq)`: the non-word
separator runs standing between two adjacent digit runs. -/
def sepsIn (s : List Char) : List (List Char) :=
  sepsInF (s.length + 1) s

/-- Dict update `self.number_separators[sep] = get(sep, 0) + 1`. -/
def bump (t : SepTable) (sep : List Char) : SepTable :=
  if t.any (fun e => e.1 == sep) then
    t.map (fun e => if e.1 == sep then (e.1, e.2 + 1) else e)
  else t ++ [(sep, 1)]

/-- Model of `FormatLearner.learn_from_service_areas` restricted to one
service area: tally every separator of every number sequence. -/
def learnArea (t : SepTable) (area : List Char) : SepTable :=
  (((numSeqs area).map sepsIn).flatten).foldl bump t

/-- Model of `FormatLearner.learn_from_service_areas`. -/
def learnFromServiceAreas (t : SepTable) (areas : List (List Char)) : SepTable :=
  areas.foldl learnArea t

/-- The shape of every state reachable by `learn_from_service_areas`: every
key is a non-empty string of non-word characters (they are captured by
`[^\d\w]+`), hence in particular digit-free. -/
def validTable (t : SepTable) : Prop :=
  ∀ e ∈ t, e.1 ≠ [] ∧ ∀ c ∈ e.1, pyIsWord c = false

/-! ## AdaptiveMatcher street normalization and comparison -/

/-- Replace a trailing `strasse`/`straße` by `str`
(`re.sub(r'strasse$|straße$', 'str', s)`). -/
def suffixRewrite (s : List Char) : List Char :=
  if "strasse".data.isSuffixOf s then s.take (s.length - 7) ++ "str".data
  else if "straße".data.isSuffixOf s then s.take (s.length - 6) ++ "str".data
  else s

/-- Model of `AdaptiveMatcher._normalize_street`: lowercase and strip, then
remove periods, whitespace and hyphens, then rewrite the German suffix. -/
def normStreet (s : List Char) : List Char :=
  let n0 := pyStrip (s.map pyLower)
  let n1 := n0.filter (fun c => !(c == '.'))
  let n2 := n1.filter (fun c => !pyIsSpace c)
  let n3 := n2.filter (fun c => !(c == '-'))
  suffixRewrite n3

/-- Model of `AdaptiveMatcher._streets_match`: empty inputs never match;
otherwise the normalized forms must be equal (note: no prefix rule here). -/
def streetsMatch (street1 street2 : List Char) : Bool :=
  if street1.isEmpty || street2.isEmpty then false
  else normStreet street1 == normStreet street2

/-! ## CraftsmanCoverageAnalyzer (google_sheets_analyzer.py) -/

/-- The `Craftsman` dataclass (the name is carried separately as the dict
key, exactly as `find_craftsmen_for_property_and_category` consumes it). -/
structure Craftsman where
  categories : List String
  service_areas_plz : List (List Char)
deriving DecidableEq

/-- `extract_street_name`: `property_address.rsplit(" ", 1)[0]`. -/
def extractStreetName (s : List Char) : List Char :=
  match s.reverse.dropWhile (fun c => !(c == ' ')) with
  | [] => s
  | _ :: rest => rest.reverse

/-- Leftmost-match removal `re.sub(r'\s+\d+.*$', '', s)`: cut at the first
whitespace run that is immediately followed by a digit. -/
def cutAtWsNum : List Char → List Char
  | [] => []
  | c :: rest =>
    if pyIsSpace c &&
        (match rest.dropWhile pyIsSpace with
         | d :: _ => d.isDigit
         | [] => false) then []
    else c :: cutAtWsNum rest

/-- Leftmost-match removal `re.sub(r'[\s.]*\d+.*$', '', s)`: cut at the
first position from which only whitespace/periods stand before a digit. -/
def cutAtSpDotNum : List Char → List Char
  | [] => []
  | c :: rest =>
    if (match (c :: rest).dropWhile (fun x => pyIsSpace x || x == '.') with
        | d :: _ => d.isDigit
        | [] => false) then []
    else c :: cutAtSpDotNum rest

/-- `re.match(r'^\d{4,5}\s+', s)`: a leading digit run of length exactly 4
or 5 followed by a whitespace character. -/
def postalStartB (s : List Char) : Bool :=
  let d := s.takeWhile Char.isDigit
  (d.length == 4 || d.length == 5) &&
    (match s.drop d.length with
     | c :: _ => pyIsSpace c
     | [] => false)

/-- The whitespace normalization applied to each service area inside
`find_craftsmen_for_property_and_category`. -/
def normalizeWsArea (a : List Char) : List Char :=
  replaceSub ['\n'] [' ']
    (replaceSub ['\t'] [' '] (replaceSub ['\t', '\n'] " / ".data a))

/-- The comma- and slash-splitting of a service area into cleaned segments
(postal-code segments are skipped). -/
def segmentsOf (area : List Char) : List (List Char) :=
  (splitOnSub " / ".data area).flatMap
    (fun main =>
      (splitOnSub [','] main).filterMap
        (fun sub =>
          let s := pyStrip sub
          if s ≠ [] ∧ postalStartB s = false then some s else none))

/-- The three-stage street comparison inlined in
`find_craftsmen_for_property_and_category`: exact lowercase equality, then
normalized equality, then the length-≥4 prefix rule on normalized forms. -/
def gsStreetMatch (property_street_only service_street_only : List Char) : Bool :=
  if service_street_only.isEmpty then false
  else
    let exactB := service_street_only.map pyLower == property_street_only.map pyLower
    let normP := normStreet property_street_only
    let normS := normStreet service_street_only
    let prefixB :=
      (decide (4 ≤ normS.length) && decide (4 ≤ normP.length)) &&
        (normP.isPrefixOf normS || normS.isPrefixOf normP)
    exactB || (normP == normS) || prefixB

/-- The inner segment loop of `find_craftsmen_for_property_and_category`,
threading the `last_street_name` state from segment to segment. -/
def segLoop (st : SepTable) (pso : List Char) (propNums : List (List Char)) :
    Option (List Char) → List (List Char) → Bool
  | _, [] => false
  | last, seg :: rest =>
    let part := pyStrip ((splitOnSub [','] seg).headD [])
    let so0 := pyStrip (cutAtSpDotNum part)
    let so :=
      if so0.isEmpty then
        match last with
        | some l => l
        | none => so0
      else so0
    let last' := if so0.isEmpty then last else some so0
    if gsStreetMatch pso so && !propNums.isEmpty then
      let sn := extract st seg
      if !sn.isEmpty && propNums.any (fun pn => sn.contains pn) then true
      else segLoop st pso propNums last' rest
    else segLoop st pso propNums last' rest

/-- Whether one craftsman serves the property: the empty service-area list
is the universal sentinel; otherwise each area is tried with the literal
containment check first and the street+number segment loop second. -/
def servesB (st : SepTable) (streetName : List Char)
    (propNums : List (List Char)) (areas : List (List Char)) : Bool :=
  if areas.isEmpty then true
  else
    areas.any (fun area0 =>
      let area := normalizeWsArea area0
      if substrB streetName area || substrB area streetName then true
      else
        let pso := pyStrip (cutAtWsNum streetName)
        segLoop st pso propNums none (segmentsOf area))

/-- Model of `CraftsmanCoverageAnalyzer.find_craftsmen_for_property_and_category`
(google_sheets_analyzer.py). -/
def gsFindCraftsmen (st : SepTable) (craftsmen : List (String × Craftsman))
    (property_address : List Char) (category : String) : List String :=
  let street_name := extractStreetName property_address
  let property_numbers := extract st property_address
  (craftsmen.filter
      (fun p => p.2.categories.contains category &&
        servesB st street_name property_numbers p.2.service_areas_plz)).map
    (fun p => p.1)

/-- The `CoverageCategoryGap` dataclass. -/
structure CoverageCategoryGap where
  category : String
  responsible_craftsmen : List String
deriving DecidableEq

/-- The `PropertyCoverageAnalysis` dataclass (`coverage_percentage` is a
Python float, modelled as `ℚ`). -/
structure PropertyCoverageAnalysis where
  property_name : List Char
  total_categories : Nat
  covered_categories : Nat
  coverage_percentage : ℚ
  gaps : List CoverageCategoryGap

/-- The category loop shared by both `analyze_property` implementations:
returns the gap list (in category order) and the covered count. -/
def coverageLoop (find : String → List String) :
    List String → List CoverageCategoryGap × Nat
  | [] => ([], 0)
  | cat :: rest =>
    let r := coverageLoop find rest
    if find cat = [] then (⟨cat, []⟩ :: r.1, r.2) else (r.1, r.2 + 1)

/-- Model of `CraftsmanCoverageAnalyzer.analyze_property`
(google_sheets_analyzer.py). -/
def gsAnalyzeProperty (st : SepTable) (categories : List String)
    (craftsmen : List (String × Craftsman)) (property_address : List Char) :
    PropertyCoverageAnalysis :=
  let r := coverageLoop (fun cat => gsFindCraftsmen st craftsmen property_address cat)
    categories
  { property_name := property_address
    total_categories := categories.length
    covered_categories := r.2
    coverage_percentage :=
      if categories = [] then 0 else (r.2 : ℚ) / (categories.length : ℚ) * 100
    gaps := r.1 }

/-! ## CraftsmanCoverageAnalyzer (craftsman_coverage_analyzer.py) -/

/-- The per-craftsman record of `CRAFTSMEN_DATA` in
craftsman_coverage_analyzer.py. -/
structure SimpleCraftsman where
  categories : List String
  service_areas : List (List Char)
deriving DecidableEq

/-- Model of `find_craftsmen_for_property_and_category` from
craftsman_coverage_analyzer.py: a craftsman serves the property iff one of
its service-area strings is a substring of the extracted street name. -/
def simpleFindCraftsmen (craftsmen_data : List (String × SimpleCraftsman))
    (property_name : List Char) (category : String) : List String :=
  let street_name := extractStreetName property_name
  (craftsmen_data.filter
      (fun p => p.2.categories.contains category &&
        p.2.service_areas.any (fun street => substrB street street_name))).map
    (fun p => p.1)

/-- Model of `analyze_property` from craftsman_coverage_analyzer.py. -/
def simpleAnalyzeProperty (categories : List String)
    (craftsmen_data : List (String × SimpleCraftsman))
    (property_name : List Char) : PropertyCoverageAnalysis :=
  let r := coverageLoop (fun cat => simpleFindCraftsmen craftsmen_data property_name cat)
    categories
  { property_name := property_name
    total_categories := categories.length
    covered_categories := r.2
    coverage_percentage :=
      if categories = [] then 0 else (r.2 : ℚ) / (categories.length : ℚ) * 100
    gaps := r.1 }

/-! ## The two diagnostics of google_sheets_analyzer.py -/

/-- The per-property matching shared by `find_missing_properties` and
`find_unmatched_service_areas`: does `area` match some listed property under
the three priorities (street containment, apartment-number intersection,
full-address containment)? -/
def matchesAnyProp (st : SepTable) (props : List (List Char))
    (area : List Char) : Bool :=
  props.any (fun prop =>
    let prop_street := extractStreetName prop
    if substrB prop_street area || substrB area prop_street then true
    else
      let pn := extract st prop
      let an := extract st area
      if !pn.isEmpty && !an.isEmpty && pn.any (fun x => an.contains x) then true
      else substrB prop area || substrB (pyStrip prop) area || substrB area prop)

/-- The `is_just_plz` test of `find_missing_properties`:
`len(service_lower) <= 5 and service_lower.isdigit()` on the stripped,
lowercased area (Python's `isdigit` is false on the empty string). -/
def isJustPlzB (area : List Char) : Bool :=
  let sl := pyStrip (area.map pyLower)
  (sl.length ≤ 5 : Bool) && (!sl.isEmpty && sl.all Char.isDigit)

/-- Appending a craftsman name under a descriptor key, preserving dict
insertion order. -/
def addEntry (m : List (List Char × List String)) (k : List Char) (v : String) :
    List (List Char × List String) :=
  if m.any (fun e => e.1 == k) then
    m.map (fun e => if e.1 == k then (e.1, e.2 ++ [v]) else e)
  else m ++ [(k, [v])]

/-- Stable lexicographic comparison used to model Python `sorted` on
strings. -/
def pyLexLe : List Char → List Char → Bool
  | [], _ => true
  | _ :: _, [] => false
  | a :: as, b :: bs => if a < b then true else if a = b then pyLexLe as bs else false

/-- Insertion step of the stable ascending sort. -/
def insertAscStr (x : String) : List String → List String
  | [] => [x]
  | y :: ys => if pyLexLe x.data y.data then x :: y :: ys else y :: insertAscStr x ys

/-- Model of Python `sorted` on a list of names. -/
def sortStrings (l : List String) : List String :=
  l.foldr insertAscStr []

/-- Accumulation pass of `find_missing_properties`: unmatched, non-postal
service areas are recorded under the craftsmen that list them. -/
def findMissingAux (st : SepTable) (props : List (List Char))
    (craftsmen : List (String × Craftsman)) : List (List Char × List String) :=
  craftsmen.foldl
    (fun acc nc =>
      if nc.2.service_areas_plz.isEmpty then acc
      else
        nc.2.service_areas_plz.foldl
          (fun acc2 area =>
            if !matchesAnyProp st props area && !isJustPlzB area then
              addEntry acc2 area nc.1
            else acc2)
          acc)
    []

/-- Model of `find_missing_properties` (google_sheets_analyzer.py). -/
def findMissingProperties (st : SepTable) (props : List (List Char))
    (craftsmen : List (String × Craftsman)) : List (List Char × List String) :=
  (findMissingAux st props craftsmen).map (fun e => (e.1, sortStrings e.2))

/-- Accumulation pass of `find_unmatched_service_areas`: identical to
`findMissingAux` except that there is no postal-code filter. -/
def findUnmatchedAux (st : SepTable) (props : List (List Char))
    (craftsmen : List (String × Craftsman)) : List (List Char × List String) :=
  craftsmen.foldl
    (fun acc nc =>
      if nc.2.service_areas_plz.isEmpty then acc
      else
        nc.2.service_areas_plz.foldl
          (fun acc2 area =>
            if !matchesAnyProp st props area then addEntry acc2 area nc.1
            else acc2)
          acc)
    []

/-- Model of `find_unmatched_service_areas` (google_sheets_analyzer.py). -/
def findUnmatchedServiceAreas (st : SepTable) (props : List (List Char))
    (craftsmen : List (String × Craftsman)) : List (List Char × List String) :=
  (findUnmatchedAux st props craftsmen).map (fun e => (e.1, sortStrings e.2))

/-! ## Character-level lemmas -/

theorem lowerPairs_keys_upper :
    lowerPairs.all (fun q => lowerPairs.all (fun p => !(q.1 == p.2))) = true := by
  decide

theorem lowerPairs_keys_not_digit :
    lowerPairs.all (fun q => !q.1.isDigit) = true := by
  decide

theorem pyLower_idem (c : Char) : pyLower (pyLower c) = pyLower c := by
  unfold pyLower
  cases h : lowerPairs.find? (fun p => p.1 == c) with
  | none => rw [h]
  | some p =>
    have hp : p ∈ lowerPairs := List.mem_of_find?_eq_some h
    have hnone : lowerPairs.find? (fun q => q.1 == p.2) = none := by
      rw [List.find?_eq_none]
      intro q hq
      have := (List.all_eq_true.mp lowerPairs_keys_upper) q hq
      have := (List.all_eq_true.mp this) p hp
      simpa using this
    rw [hnone]

theorem pyLower_of_isDigit {c : Char} (h : c.isDigit = true) : pyLower c = c := by
  unfold pyLower
  have hnone : lowerPairs.find? (fun p => p.1 == c) = none := by
    rw [List.find?_eq_none]
    intro q hq hbeq
    have hq2 := (List.all_eq_true.mp lowerPairs_keys_not_digit) q hq
    have : q.1 = c := by simpa using hbeq
    rw [this] at hq2
    simp [h] at hq2
  rw [hnone]

theorem not_space_of_isDigit {c : Char} (h : c.isDigit = true) :
    pyIsSpace c = false := by
  by_contra hne
  have hs : pyIsSpace c = true := by
    cases hx : pyIsSpace c
    · exact absurd hx hne
    · rfl
  unfold pyIsSpace at hs
  simp only [Bool.or_eq_true, beq_iff_eq] at hs
  rcases hs with ((((((rfl | rfl) | rfl) | rfl) | rfl) | rfl) | rfl) <;> simp_all

theorem not_digit_of_isDash {c : Char} (h : isDashC c = true) :
    c.isDigit = false := by
  unfold isDashC at h
  simp only [Bool.or_eq_true, beq_iff_eq] at h
  rcases h with (rfl | rfl) | rfl <;> decide

theorem not_space_of_isDash {c : Char} (h : isDashC c = true) :
    pyIsSpace c = false := by
  unfold isDashC at h
  simp only [Bool.or_eq_true, beq_iff_eq] at h
  rcases h with (rfl | rfl) | rfl <;> decide

theorem not_digit_of_not_word {c : Char} (h : pyIsWord c = false) :
    c.isDigit = false := by
  cases hd : c.isDigit
  · rfl
  · exfalso
    have hw : pyIsWord c = true := by
      unfold pyIsWord Char.isAlphanum
      simp [hd]
    simp [hw] at h

/-! ## spanD and dropWhile lemmas -/

theorem spanD_nil (p : Char → Bool) : spanD p [] = ([], []) := rfl

theorem spanD_cons_neg {p : Char → Bool} {c : Char} (l : List Char)
    (h : p c = false) : spanD p (c :: l) = ([], c :: l) := by
  simp [spanD, h]

theorem spanD_append {p : Char → Bool} {a b : List Char}
    (ha : ∀ c ∈ a, p c = true)
    (hb : ∀ hd, b.head? = some hd → p hd = false) :
    spanD p (a ++ b) = (a, b) := by
  induction a with
  | nil =>
    simp only [List.nil_append]
    cases b with
    | nil => rfl
    | cons hd tl =>
      have := hb hd rfl
      simp [spanD, this]
  | cons c a ih =>
    have hc : p c = true := ha c (by simp)
    have ih2 := ih (fun x hx => ha x (by simp [hx]))
    simp [spanD, hc, ih2]

theorem spanD_all {p : Char → Bool} {a : List Char}
    (ha : ∀ c ∈ a, p c = true) : spanD p a = (a, []) := by
  have := spanD_append (b := []) ha (by intro hd h; cases h)
  simpa using this

theorem dropWhile_append_all {p : Char → Bool} {a : List Char} (b : List Char)
    (ha : ∀ c ∈ a, p c = true) :
    (a ++ b).dropWhile p = b.dropWhile p := by
  induction a with
  | nil => rfl
  | cons c a ih =>
    have hc : p c = true := ha c (by simp)
    simp only [List.cons_append, List.dropWhile_cons, hc, if_true]
    exact ih (fun x hx => ha x (by simp [hx]))

theorem dropWhile_cons_neg {p : Char → Bool} {c : Char} (l : List Char)
    (h : p c = false) : (c :: l).dropWhile p = c :: l := by
  simp [List.dropWhile_cons, h]

theorem dropWhile_eq_self_of_all {p : Char → Bool} {l : List Char}
    (h : ∀ c ∈ l, p c = false) : l.dropWhile p = l := by
  cases l with
  | nil => rfl
  | cons c t => exact dropWhile_cons_neg t (h c (by simp))

/-! ## splitOnSub characterization -/

theorem splitGo_skip (sep : List Char) :
    ∀ (text : List Char) (n : Nat) (acc : List Char),
      splitGo sep text n acc = splitGo sep (text.drop n) 0 acc := by
  intro text
  induction text with
  | nil => intro n acc; cases n <;> rfl
  | cons c rest ih =>
    intro n acc
    cases n with
    | zero => rfl
    | succ m =>
      show splitGo sep rest m acc = _
      rw [ih m acc]
      rfl

theorem findSub_nil_of_ne {sep : List Char} (h : sep ≠ []) :
    findSub sep [] = none := by
  unfold findSub
  simp [h]

theorem splitGo_of_findSub_none {sep : List Char} :
    ∀ (text : List Char) (acc : List Char), findSub sep text = none →
      splitGo sep text 0 acc = [acc.reverse ++ text] := by
  intro text
  induction text with
  | nil => intro acc h; simp [splitGo]
  | cons c rest ih =>
    intro acc h
    unfold findSub at h
    by_cases hp : sep.isPrefixOf (c :: rest) = true
    · simp [hp] at h
    · have hp2 : sep.isPrefixOf (c :: rest) = false := by
        cases hx : sep.isPrefixOf (c :: rest)
        · rfl
        · exact absurd hx hp
      rw [hp2] at h
      simp only [if_false, Bool.false_eq_true] at h
      have hrest : findSub sep rest = none := by
        cases hx : findSub sep rest
        · rfl
        · rw [hx] at h; simp at h
      show (if sep.isPrefixOf (c :: rest) then _ else _) = _
      rw [hp2]
      simp only [Bool.false_eq_true, if_false]
      rw [ih (c :: acc) hrest]
      simp

theorem splitGo_of_findSub_some {sep : List Char} (hsep : sep ≠ []) :
    ∀ (text : List Char) (acc : List Char) (i : Nat), findSub sep text = some i →
      splitGo sep text 0 acc =
        (acc.reverse ++ text.take i) :: splitOnSub sep (text.drop (i + sep.length)) := by
  intro text
  induction text with
  | nil =>
    intro acc i h
    rw [findSub_nil_of_ne hsep] at h
    cases h
  | cons c rest ih =>
    intro acc i h
    unfold findSub at h
    by_cases hp : sep.isPrefixOf (c :: rest) = true
    · rw [if_pos hp] at h
      cases h
      show (if sep.isPrefixOf (c :: rest) then _ else _) = _
      rw [if_pos hp]
      rw [splitGo_skip]
      have hlen : ∃ k, sep.length = k + 1 := by
        cases sep with
        | nil => exact absurd rfl hsep
        | cons s t => exact ⟨t.length, rfl⟩
      obtain ⟨k, hk⟩ := hlen
      simp only [List.take_zero, List.append_nil, hk, Nat.zero_add,
        List.drop_succ_cons]
      rfl
    · have hp2 : sep.isPrefixOf (c :: rest) = false := by
        cases hx : sep.isPrefixOf (c :: rest)
        · rfl
        · exact absurd hx hp
      rw [hp2] at h
      simp only [Bool.false_eq_true, if_false] at h
      cases hx : findSub sep rest with
      | none => rw [hx] at h; cases h
      | some j =>
        rw [hx] at h
        have hij : i = j + 1 := by
          simpa using h.symm
        subst hij
        show (if sep.isPrefixOf (c :: rest) then _ else _) = _
        rw [hp2]
        simp only [Bool.false_eq_true, if_false]
        rw [ih (c :: acc) j hx]
        simp only [List.take_succ_cons, List.reverse_cons, Nat.add_right_comm,
          List.drop_succ_cons, List.append_assoc, List.singleton_append]

theorem splitOnSub_of_none {sep text : List Char} (h : findSub sep text = none) :
    splitOnSub sep text = [text] := by
  unfold splitOnSub
  rw [splitGo_of_findSub_none text [] h]
  rfl

theorem splitOnSub_of_some {sep text : List Char} {i : Nat} (hsep : sep ≠ [])
    (h : findSub sep text = some i) :
    splitOnSub sep text =
      text.take i :: splitOnSub sep (text.drop (i + sep.length)) := by
  unfold splitOnSub
  rw [splitGo_of_findSub_some hsep text [] i h]
  rfl

theorem findSub_decomp {sep : List Char} (hsep : sep ≠ []) :
    ∀ (text : List Char) (i : Nat), findSub sep text = some i →
      text = text.take i ++ sep ++ text.drop (i + sep.length) := by
  intro text
  induction text with
  | nil =>
    intro i h
    rw [findSub_nil_of_ne hsep] at h
    cases h
  | cons c rest ih =>
    intro i h
    unfold findSub at h
    by_cases hp : sep.isPrefixOf (c :: rest) = true
    · rw [if_pos hp] at h
      cases h
      have hpre : sep <+: (c :: rest) := List.isPrefixOf_iff_prefix.mp hp
      obtain ⟨t, ht⟩ := hpre
      have hdrop : (c :: rest).drop sep.length = t := by
        rw [← ht, List.drop_left]
      simp only [List.take_zero, List.nil_append, Nat.zero_add, hdrop]
      exact ht.symm
    · have hp2 : sep.isPrefixOf (c :: rest) = false := by
        cases hx : sep.isPrefixOf (c :: rest)
        · rfl
        · exact absurd hx hp
      rw [hp2] at h
      simp only [Bool.false_eq_true, if_false] at h
      cases hx : findSub sep rest with
      | none => rw [hx] at h; cases h
      | some j =>
        rw [hx] at h
        have hij : i = j + 1 := by simpa using h.symm
        subst hij
        have := ih j hx
        simp only [List.take_succ_cons, Nat.add_right_comm, List.drop_succ_cons,
          List.cons_append]
        exact congrArg (c :: ·) this

theorem findSub_some_ne_nil {sep text : List Char} {i : Nat} (hsep : sep ≠ [])
    (h : findSub sep text = some i) : text ≠ [] := by
  intro hnil
  rw [hnil, findSub_nil_of_ne hsep] at h
  cases h

/-! ## digitRuns distribution over splitting -/

theorem digitRunsAux_append {b : List Char}
    (hb : ∀ hd, b.head? = some hd → hd.isDigit = false) :
    ∀ (a cur : List Char),
      digitRunsAux cur (a ++ b) = digitRunsAux cur a ++ digitRunsAux [] b := by
  intro a
  induction a with
  | nil =>
    intro cur
    cases b with
    | nil => simp [digitRunsAux]
    | cons d rest =>
      have hd : d.isDigit = false := hb d rfl
      by_cases hc : cur.isEmpty = true
      · simp [digitRunsAux, hd, hc]
      · have hc2 : cur.isEmpty = false := by
          cases hx : cur.isEmpty
          · rfl
          · exact absurd hx hc
        simp [digitRunsAux, hd, hc2]
  | cons c a ih =>
    intro cur
    by_cases hcd : c.isDigit = true
    · simp only [List.cons_append, digitRunsAux, hcd, if_true]
      exact ih (c :: cur)
    · have hcd2 : c.isDigit = false := by
        cases hx : c.isDigit
        · rfl
        · exact absurd hx hcd
      by_cases hc : cur.isEmpty = true
      · simp only [List.cons_append, digitRunsAux, hcd2, hc]
        simp only [Bool.false_eq_true, if_false, if_true]
        exact ih []
      · have hc2 : cur.isEmpty = false := by
          cases hx : cur.isEmpty
          · rfl
          · exact absurd hx hc
        simp only [List.cons_append, digitRunsAux, hcd2, hc2]
        simp only [Bool.false_eq_true, if_false]
        simp only [List.append_eq]
        rw [ih []]
        simp

theorem digitRunsAux_nondigit_prefix {s : List Char}
    (hs : ∀ c ∈ s, c.isDigit = false) (rest : List Char) :
    digitRunsAux [] (s ++ rest) = digitRunsAux [] rest := by
  induction s with
  | nil => rfl
  | cons c t ih =>
    have hc : c.isDigit = false := hs c (by simp)
    simp only [List.cons_append, digitRunsAux, hc, Bool.false_eq_true, if_false,
      List.isEmpty_nil, if_true]
    exact ih (fun x hx => hs x (by simp [hx]))

theorem digitRuns_splitOnSub {sep : List Char} (hsep : sep ≠ [])
    (hnd : ∀ c ∈ sep, c.isDigit = false) :
    ∀ text, ((splitOnSub sep text).map digitRuns).flatten = digitRuns text := by
  have main : ∀ (n : Nat) (text : List Char), text.length ≤ n →
      ((splitOnSub sep text).map digitRuns).flatten = digitRuns text := by
    intro n
    induction n with
    | zero =>
      intro text hlen
      have : text = [] := by
        cases text with
        | nil => rfl
        | cons c t => simp at hlen
      subst this
      rfl
    | succ m ih =>
      intro text hlen
      cases hfs : findSub sep text with
      | none => rw [splitOnSub_of_none hfs]; simp
      | some i =>
        rw [splitOnSub_of_some hsep hfs]
        have hdecomp := findSub_decomp hsep text i hfs
        have hne : text ≠ [] := findSub_some_ne_nil hsep hfs
        have hlt : (text.drop (i + sep.length)).length ≤ m := by
          have h1 : (text.drop (i + sep.length)).length = text.length - (i + sep.length) :=
            List.length_drop _ _
          have h2 : 1 ≤ sep.length := by
            cases sep with
            | nil => exact absurd rfl hsep
            | cons s t => simp
          have h3 : 1 ≤ text.length := by
            cases text with
            | nil => exact absurd rfl hne
            | cons c t => simp
          omega
        have ihr := ih (text.drop (i + sep.length)) hlt
        simp only [List.map_cons, List.flatten_cons, ihr]
        conv_rhs => rw [hdecomp]
        have hhead : ∀ hd, (sep ++ text.drop (i + sep.length)).head? = some hd →
            hd.isDigit = false := by
          intro hd hh
          cases sep with
          | nil => exact absurd rfl hsep
          | cons s t =>
            simp only [List.cons_append, List.head?_cons, Option.some_inj] at hh
            rw [← hh]
            exact hnd s (by simp)
        unfold digitRuns
        rw [List.append_assoc,
          digitRunsAux_append hhead (text.take i) [],
          digitRunsAux_nondigit_prefix hnd (text.drop (i + sep.length))]
  intro text
  exact main text.length text le_rfl

theorem filter_flatten_map {α : Type} {p : α → Bool} :
    ∀ L : List (List α),
      (L.map (fun s => s.filter p)).flatten = L.flatten.filter p := by
  intro L
  induction L with
  | nil => rfl
  | cons a L ih =>
    simp only [List.map_cons, List.flatten_cons, List.filter_append, ih]

theorem slashCollect_eq_shortNums (text : List Char) :
    slashCollect text = shortNums text := by
  have h2 : (splitOnSub ['/'] text).map shortNums =
      ((splitOnSub ['/'] text).map digitRuns).map
        (fun l => l.filter (fun m => decide (m.length ≤ 3))) := by
    rw [List.map_map]
    apply List.map_congr_left
    intro a _
    rfl
  unfold slashCollect
  rw [h2, filter_flatten_map, digitRuns_splitOnSub (by simp) (by decide) text]
  rfl

theorem run_of_part_mem {sep text part m : List Char}
    (hsep : sep ≠ []) (hnd : ∀ c ∈ sep, c.isDigit = false)
    (hpart : part ∈ splitOnSub sep text) (hm : m ∈ digitRuns part) :
    m ∈ digitRuns text := by
  rw [← digitRuns_splitOnSub hsep hnd text]
  rw [List.mem_flatten]
  exact ⟨digitRuns part, List.mem_map_of_mem _ hpart, hm⟩

/-! ## partFirsts and learnedLoop lemmas -/

theorem foldr_firsts_mem {m : List Char} :
    ∀ parts : List (List Char),
      m ∈ parts.foldr
        (fun part acc =>
          match (digitRuns part).head? with
          | some x => if x.length ≤ 3 then x :: acc else acc
          | none => acc) [] →
      m.length ≤ 3 ∧ ∃ part ∈ parts, (digitRuns part).head? = some m := by
  intro parts
  induction parts with
  | nil => intro h; cases h
  | cons p ps ih =>
    intro h
    cases hh : (digitRuns p).head? with
    | none =>
      simp only [List.foldr_cons, hh] at h
      obtain ⟨h1, part, h2, h3⟩ := ih h
      exact ⟨h1, part, by simp [h2], h3⟩
    | some x =>
      simp only [List.foldr_cons, hh] at h
      by_cases hx : x.length ≤ 3
      · rw [if_pos hx] at h
        rcases List.mem_cons.mp h with rfl | h2
        · exact ⟨hx, p, by simp, hh⟩
        · obtain ⟨h1, part, h3, h4⟩ := ih h2
          exact ⟨h1, part, by simp [h3], h4⟩
      · rw [if_neg hx] at h
        obtain ⟨h1, part, h3, h4⟩ := ih h
        exact ⟨h1, part, by simp [h3], h4⟩

theorem partFirsts_mem {sep text m : List Char} (h : m ∈ partFirsts sep text) :
    m.length ≤ 3 ∧ ∃ part ∈ splitOnSub sep text, (digitRuns part).head? = some m := by
  exact foldr_firsts_mem (splitOnSub sep text) h

theorem partFirsts_eq_nil {sep text : List Char} (hsep : sep ≠ [])
    (hnd : ∀ c ∈ sep, c.isDigit = false)
    (hlong : ∀ r ∈ digitRuns text, ¬ r.length ≤ 3) :
    partFirsts sep text = [] := by
  cases hx : partFirsts sep text with
  | nil => rfl
  | cons m rest =>
    exfalso
    have hm : m ∈ partFirsts sep text := by rw [hx]; simp
    obtain ⟨hlen, part, hpart, hhead⟩ := partFirsts_mem hm
    have : m ∈ digitRuns part := by
      cases hdr : digitRuns part with
      | nil => rw [hdr] at hhead; cases hhead
      | cons a t =>
        rw [hdr] at hhead
        simp only [List.head?_cons, Option.some_inj] at hhead
        rw [hhead]
        simp
    exact hlong m (run_of_part_mem hsep hnd hpart this) hlen

theorem mem_insertDesc {x y : List Char × Nat} :
    ∀ l : SepTable, x ∈ insertDesc y l → x = y ∨ x ∈ l := by
  intro l
  induction l with
  | nil =>
    intro h
    simp [insertDesc] at h
    exact Or.inl h
  | cons z zs ih =>
    intro h
    unfold insertDesc at h
    by_cases hc : z.2 ≤ y.2
    · rw [if_pos hc] at h
      rcases List.mem_cons.mp h with rfl | h2
      · exact Or.inl rfl
      · exact Or.inr h2
    · rw [if_neg hc] at h
      rcases List.mem_cons.mp h with rfl | h2
      · exact Or.inr (by simp)
      · rcases ih h2 with h3 | h3
        · exact Or.inl h3
        · exact Or.inr (by simp [h3])

theorem mem_sortDesc {x : List Char × Nat} :
    ∀ t : SepTable, x ∈ sortDesc t → x ∈ t := by
  intro t
  induction t with
  | nil => intro h; simp [sortDesc] at h
  | cons e es ih =>
    intro h
    unfold sortDesc at h
    simp only [List.foldr_cons] at h
    rcases mem_insertDesc _ h with rfl | h2
    · simp
    · exact List.mem_cons_of_mem _ (ih h2)

theorem learnedLoop_eq_none {text : List Char} :
    ∀ l : SepTable, (∀ e ∈ l, partFirsts e.1 text = []) →
      learnedLoop l text = none := by
  intro l
  induction l with
  | nil => intro _; rfl
  | cons e rest ih =>
    intro h
    unfold learnedLoop
    have he : partFirsts e.1 text = [] := h e (by simp)
    by_cases hc : (substrB e.1 text && !(e.1 == ['/'])) = true
    · rw [if_pos hc, he]
      simp only [List.isEmpty_nil, if_true]
      exact ih (fun x hx => h x (by simp [hx]))
    · rw [if_neg hc]
      exact ih (fun x hx => h x (by simp [hx]))

theorem learnedLoop_first_found {text : List Char} {e : List Char × Nat} :
    ∀ l : SepTable,
      l.find? (fun x => substrB x.1 text && !(x.1 == ['/'])) = some e →
      partFirsts e.1 text ≠ [] →
      learnedLoop l text = some (partFirsts e.1 text).dedup := by
  intro l
  induction l with
  | nil => intro h; cases h
  | cons f rest ih =>
    intro hfind hne
    unfold learnedLoop
    by_cases hc : (substrB f.1 text && !(f.1 == ['/'])) = true
    · have hc' : (fun x : List Char × Nat => substrB x.1 text && !(x.1 == ['/'])) f = true := hc
      rw [List.find?_cons_of_pos rest hc'] at hfind
      cases hfind
      rw [if_pos hc]
      have hfalse : (partFirsts e.1 text).isEmpty = false := by
        cases hx : partFirsts e.1 text with
        | nil => exact absurd hx hne
        | cons a t => rfl
      simp [hfalse]
    · have hc' : ¬ (fun x : List Char × Nat => substrB x.1 text && !(x.1 == ['/'])) f = true := hc
      rw [List.find?_cons_of_neg rest hc'] at hfind
      rw [if_neg hc]
      exact ih hfind hne

theorem learnedLoop_some_shape {text : List Char} :
    ∀ (l : SepTable) (res : List (List Char)), learnedLoop l text = some res →
      ∃ sep, res = (partFirsts sep text).dedup := by
  intro l
  induction l with
  | nil => intro res h; cases h
  | cons e rest ih =>
    intro res h
    unfold learnedLoop at h
    by_cases hc : (substrB e.1 text && !(e.1 == ['/'])) = true
    · rw [if_pos hc] at h
      by_cases hemp : (partFirsts e.1 text).isEmpty = true
      · simp only [hemp, if_true] at h
        exact ih res h
      · have hemp2 : (partFirsts e.1 text).isEmpty = false := by
          cases hx : (partFirsts e.1 text).isEmpty
          · rfl
          · exact absurd hx hemp
        simp only [hemp2, Bool.false_eq_true, if_false, Option.some_inj] at h
        exact ⟨e.1, h.symm⟩
    · rw [if_neg hc] at h
      exact ih res h

/-! ## The slash rule dominates for slash-containing texts (C4 core) -/

theorem extract_slash_eq {st : SepTable} (hval : validTable st) {text : List Char}
    (hsl : text.contains '/' = true) (hr : findRange text = none) :
    extract st text = (slashCollect text).dedup := by
  unfold extract
  rw [hr]
  simp only [hsl, if_true]
  by_cases hempty : slashCollect text = []
  · have h1 : (slashCollect text).isEmpty = true := by rw [hempty]; rfl
    rw [h1]
    simp only [Bool.not_true, Bool.false_eq_true, if_false]
    have hshort : shortNums text = [] := by
      rw [← slashCollect_eq_shortNums]
      exact hempty
    have hlong : ∀ r ∈ digitRuns text, ¬ (r.length ≤ 3) := by
      intro r hrr hle
      have hmem : r ∈ shortNums text := by
        unfold shortNums
        rw [List.mem_filter]
        exact ⟨hrr, by simpa using hle⟩
      rw [hshort] at hmem
      cases hmem
    have hnone : learnedLoop (sortDesc st) text = none := by
      apply learnedLoop_eq_none
      intro e he
      have hest : e ∈ st := mem_sortDesc _ he
      obtain ⟨hne, hnw⟩ := hval e hest
      exact partFirsts_eq_nil hne (fun c hc => not_digit_of_not_word (hnw c hc)) hlong
    rw [hnone, hshort, hempty]
  · have h1 : (slashCollect text).isEmpty = false := by
      cases hx : slashCollect text with
      | nil => exact absurd hx hempty
      | cons a t => rfl
    rw [h1]
    simp

/-! ## Every state built by learn_from_service_areas is a validTable -/

theorem spanD_fst_all {p : Char → Bool} :
    ∀ s : List Char, ∀ c ∈ (spanD p s).1, p c = true := by
  intro s
  induction s with
  | nil => intro c hc; cases hc
  | cons a rest ih =>
    intro c hc
    by_cases ha : p a = true
    · simp only [spanD, ha, if_true] at hc
      rcases List.mem_cons.mp hc with rfl | h2
      · exact ha
      · exact ih c h2
    · have ha2 : p a = false := by
        cases hx : p a
        · rfl
        · exact absurd hx ha
      simp only [spanD, ha2, Bool.false_eq_true, if_false] at hc
      cases hc

theorem sepsInF_valid :
    ∀ (fuel : Nat) (s sep : List Char), sep ∈ sepsInF fuel s →
      sep ≠ [] ∧ ∀ c ∈ sep, pyIsWord c = false := by
  intro fuel
  induction fuel with
  | zero => intro s sep h; cases h
  | succ m ih =>
    intro s sep h
    cases s with
    | nil => cases h
    | cons c rest =>
      unfold sepsInF at h
      by_cases hcd : c.isDigit = true
      · simp only [hcd, if_true] at h
        by_cases hse :
            ((spanD (fun x => !pyIsWord x) (spanD Char.isDigit (c :: rest)).2).1).isEmpty = true
        · rw [if_pos hse] at h
          exact ih rest sep h
        · rw [if_neg hse] at h
          cases hr2 : (spanD (fun x => !pyIsWord x) (spanD Char.isDigit (c :: rest)).2).2 with
          | nil =>
            simp only [hr2] at h
            exact ih rest sep h
          | cons d r3 =>
            simp only [hr2] at h
            by_cases hdd : d.isDigit = true
            · rw [if_pos hdd] at h
              rcases List.mem_cons.mp h with rfl | h2
              · constructor
                · intro hnil
                  rw [hnil] at hse
                  exact hse rfl
                · intro x hx
                  have := spanD_fst_all (spanD Char.isDigit (c :: rest)).2 x hx
                  simpa using this
              · exact ih (d :: r3) sep h2
            · rw [if_neg hdd] at h
              exact ih rest sep h
      · have hcd2 : c.isDigit = false := by
          cases hx : c.isDigit
          · rfl
          · exact absurd hx hcd
        simp only [hcd2, Bool.false_eq_true, if_false] at h
        exact ih rest sep h

theorem bump_valid {t : SepTable} {sep : List Char}
    (ht : validTable t) (hs : sep ≠ [] ∧ ∀ c ∈ sep, pyIsWord c = false) :
    validTable (bump t sep) := by
  intro e he
  unfold bump at he
  by_cases hc : t.any (fun x => x.1 == sep) = true
  · rw [if_pos hc] at he
    obtain ⟨f, hf, hfe⟩ := List.mem_map.mp he
    by_cases hfs : (f.1 == sep) = true
    · rw [if_pos hfs] at hfe
      rw [← hfe]
      exact ht f hf
    · rw [if_neg hfs] at hfe
      rw [← hfe]
      exact ht f hf
  · rw [if_neg hc] at he
    rcases List.mem_append.mp he with h1 | h2
    · exact ht e h1
    · have : e = (sep, 1) := by simpa using h2
      rw [this]
      exact hs

theorem foldl_bump_valid :
    ∀ (seps : List (List Char)) (t : SepTable), validTable t →
      (∀ s ∈ seps, s ≠ [] ∧ ∀ c ∈ s, pyIsWord c = false) →
      validTable (seps.foldl bump t) := by
  intro seps
  induction seps with
  | nil => intro t ht _; exact ht
  | cons a rest ih =>
    intro t ht hall
    simp only [List.foldl_cons]
    exact ih (bump t a) (bump_valid ht (hall a (by simp)))
      (fun s hs => hall s (by simp [hs]))

theorem learnArea_valid {t : SepTable} {area : List Char} (ht : validTable t) :
    validTable (learnArea t area) := by
  unfold learnArea
  apply foldl_bump_valid _ _ ht
  intro s hs
  rw [List.mem_flatten] at hs
  obtain ⟨l, hl, hsl⟩ := hs
  rw [List.mem_map] at hl
  obtain ⟨seq, hseq, hleq⟩ := hl
  rw [← hleq] at hsl
  unfold sepsIn at hsl
  exact sepsInF_valid _ seq s hsl

/-- Every separator table produced by `learn_from_service_areas` (from any
valid starting state, in particular the empty dict of `__init__`) satisfies
`validTable`: its keys are non-empty strings of non-word characters.  This is
what justifies quantifying over `validTable` states in the claims about
"states of the learned separator table". -/
theorem learnFromServiceAreas_valid {t : SepTable} (areas : List (List Char))
    (ht : validTable t) : validTable (learnFromServiceAreas t areas) := by
  unfold learnFromServiceAreas
  induction areas generalizing t with
  | nil => exact ht
  | cons a rest ih =>
    simp only [List.foldl_cons]
    exact ih (learnArea_valid ht)

/-! ## The range rule fires on "A N1-N2" descriptors (C5 core) -/

theorem not_digit_of_space {c : Char} (h : pyIsSpace c = true) :
    c.isDigit = false := by
  cases hx : c.isDigit
  · rfl
  · rw [not_space_of_isDigit hx] at h
    cases h

theorem tryRangeAt_nondigit_head {c : Char} (l : List Char)
    (h : c.isDigit = false) : tryRangeAt (c :: l) = none := by
  unfold tryRangeAt
  rw [spanD_cons_neg l h]
  rfl

theorem findRange_append_nondigit {A : List Char}
    (hA : ∀ c ∈ A, c.isDigit = false) (r : List Char) :
    findRange (A ++ r) = findRange r := by
  induction A with
  | nil => rfl
  | cons c t ih =>
    have hc : c.isDigit = false := hA c (by simp)
    show (match tryRangeAt (c :: (t ++ r)) with
          | some p => some p
          | none => findRange (t ++ r)) = findRange r
    rw [tryRangeAt_nondigit_head _ hc]
    exact ih (fun x hx => hA x (by simp [hx]))

theorem tryRangeAt_form {d1 w1 w2 d2 : List Char} {g : Char}
    (hd1 : d1 ≠ []) (hd1d : ∀ c ∈ d1, c.isDigit = true)
    (hw1 : ∀ c ∈ w1, pyIsSpace c = true)
    (hg : isDashC g = true)
    (hw2 : ∀ c ∈ w2, pyIsSpace c = true)
    (hd2 : d2 ≠ []) (hd2d : ∀ c ∈ d2, c.isDigit = true) :
    tryRangeAt (d1 ++ (w1 ++ g :: (w2 ++ d2))) =
      some (digitsToNat d1, digitsToNat d2) := by
  have hsp1 : spanD Char.isDigit (d1 ++ (w1 ++ g :: (w2 ++ d2))) =
      (d1, w1 ++ g :: (w2 ++ d2)) := by
    apply spanD_append hd1d
    intro hd hh
    cases w1 with
    | nil =>
      simp only [List.nil_append, List.head?_cons, Option.some_inj] at hh
      rw [← hh]
      exact not_digit_of_isDash hg
    | cons a t =>
      simp only [List.cons_append, List.head?_cons, Option.some_inj] at hh
      rw [← hh]
      exact not_digit_of_space (hw1 a (by simp))
  have h1 : (w1 ++ g :: (w2 ++ d2)).dropWhile pyIsSpace = g :: (w2 ++ d2) := by
    rw [dropWhile_append_all _ hw1]
    exact dropWhile_cons_neg _ (not_space_of_isDash hg)
  have h2 : (w2 ++ d2).dropWhile pyIsSpace = d2 := by
    rw [dropWhile_append_all _ hw2]
    apply dropWhile_eq_self_of_all
    intro c hc
    exact not_space_of_isDigit (hd2d c hc)
  have h3 : spanD Char.isDigit d2 = (d2, []) := spanD_all hd2d
  have hne1 : d1.isEmpty = false := by
    cases d1 with
    | nil => exact absurd rfl hd1
    | cons a t => rfl
  have hne2 : d2.isEmpty = false := by
    cases d2 with
    | nil => exact absurd rfl hd2
    | cons a t => rfl
  unfold tryRangeAt
  simp only [hsp1, hne1, Bool.false_eq_true, if_false, h1, hg, if_true, h2, h3,
    hne2]

theorem findRange_form {A d1 w1 w2 d2 : List Char} {g : Char}
    (hA : ∀ c ∈ A, c.isDigit = false)
    (hd1 : d1 ≠ []) (hd1d : ∀ c ∈ d1, c.isDigit = true)
    (hw1 : ∀ c ∈ w1, pyIsSpace c = true)
    (hg : isDashC g = true)
    (hw2 : ∀ c ∈ w2, pyIsSpace c = true)
    (hd2 : d2 ≠ []) (hd2d : ∀ c ∈ d2, c.isDigit = true) :
    findRange (A ++ d1 ++ (w1 ++ g :: (w2 ++ d2))) =
      some (digitsToNat d1, digitsToNat d2) := by
  rw [List.append_assoc, findRange_append_nondigit hA]
  cases d1 with
  | nil => exact absurd rfl hd1
  | cons c t =>
    have htry := tryRangeAt_form hd1 hd1d hw1 hg hw2 hd2 hd2d
    show (match tryRangeAt (c :: (t ++ (w1 ++ g :: (w2 ++ d2)))) with
          | some p => some p
          | none => findRange (t ++ (w1 ++ g :: (w2 ++ d2)))) = _
    rw [show c :: (t ++ (w1 ++ g :: (w2 ++ d2))) =
        (c :: t) ++ (w1 ++ g :: (w2 ++ d2)) from rfl]
    rw [htry]

/-! ## Idempotence of street normalization (C9 core) -/

theorem pyStrip_subset {l : List Char} : pyStrip l ⊆ l := by
  unfold pyStrip
  intro c hc
  rw [List.mem_reverse] at hc
  have h1 := (List.dropWhile_sublist (l := (l.dropWhile pyIsSpace).reverse) pyIsSpace).subset hc
  rw [List.mem_reverse] at h1
  exact (List.dropWhile_sublist pyIsSpace).subset h1

theorem pyStrip_eq_self_of_no_space {l : List Char}
    (h : ∀ c ∈ l, pyIsSpace c = false) : pyStrip l = l := by
  unfold pyStrip
  rw [dropWhile_eq_self_of_all h]
  rw [dropWhile_eq_self_of_all (by intro c hc; exact h c (List.mem_reverse.mp hc))]
  exact List.reverse_reverse l

theorem getLast?_append_str (u : List Char) :
    (u ++ "str".data).getLast? = some 'r' := by
  rw [List.getLast?_append]
  rfl

theorem not_strasse_suffix {t : List Char} (h : t.getLast? = some 'r') :
    "strasse".data.isSuffixOf t = false := by
  cases hx : "strasse".data.isSuffixOf t
  · rfl
  · exfalso
    obtain ⟨p, hp⟩ := List.isSuffixOf_iff_suffix.mp hx
    rw [← hp, List.getLast?_append] at h
    have he : "strasse".data.getLast? = some 'e' := by decide
    rw [he] at h
    simp at h

theorem not_strasse2_suffix {t : List Char} (h : t.getLast? = some 'r') :
    "straße".data.isSuffixOf t = false := by
  cases hx : "straße".data.isSuffixOf t
  · rfl
  · exfalso
    obtain ⟨p, hp⟩ := List.isSuffixOf_iff_suffix.mp hx
    rw [← hp, List.getLast?_append] at h
    have he : "straße".data.getLast? = some 'e' := by decide
    rw [he] at h
    simp at h

theorem suffixRewrite_of_app_str (u : List Char) :
    suffixRewrite (u ++ "str".data) = u ++ "str".data := by
  unfold suffixRewrite
  rw [not_strasse_suffix (getLast?_append_str u),
    not_strasse2_suffix (getLast?_append_str u)]
  simp

theorem suffixRewrite_cases (s : List Char) :
    (∃ u, u ⊆ s ∧ suffixRewrite s = u ++ "str".data) ∨ suffixRewrite s = s := by
  unfold suffixRewrite
  by_cases h1 : "strasse".data.isSuffixOf s = true
  · rw [if_pos h1]
    exact Or.inl ⟨s.take (s.length - 7), List.take_subset _ _, rfl⟩
  · rw [if_neg h1]
    by_cases h2 : "straße".data.isSuffixOf s = true
    · rw [if_pos h2]
      exact Or.inl ⟨s.take (s.length - 6), List.take_subset _ _, rfl⟩
    · rw [if_neg h2]
      exact Or.inr rfl

theorem suffixRewrite_fix {s : List Char}
    (h1 : "strasse".data.isSuffixOf s = false)
    (h2 : "straße".data.isSuffixOf s = false) : suffixRewrite s = s := by
  unfold suffixRewrite
  rw [h1, h2]
  simp

theorem suffixRewrite_idem (l : List Char) :
    suffixRewrite (suffixRewrite l) = suffixRewrite l := by
  rcases suffixRewrite_cases l with ⟨u, _, heq⟩ | heq
  · rw [heq]
    exact suffixRewrite_of_app_str u
  · rw [heq]
    exact heq

theorem normStreet_chars {s : List Char} :
    ∀ c ∈ normStreet s,
      pyLower c = c ∧ pyIsSpace c = false ∧ (c == '.') = false ∧
        (c == '-') = false := by
  intro c hc
  have hstr : ∀ x ∈ "str".data,
      pyLower x = x ∧ pyIsSpace x = false ∧ (x == '.') = false ∧
        (x == '-') = false := by decide
  simp only [normStreet] at hc
  generalize hn3 :
    (((pyStrip (s.map pyLower)).filter (fun c => !(c == '.'))).filter
        (fun c => !pyIsSpace c)).filter (fun c => !(c == '-')) = n3 at hc
  have hn3chars : ∀ x ∈ n3,
      pyLower x = x ∧ pyIsSpace x = false ∧ (x == '.') = false ∧
        (x == '-') = false := by
    intro x hx
    rw [← hn3] at hx
    have h3 := List.mem_filter.mp hx
    have h2 := List.mem_filter.mp h3.1
    have h1 := List.mem_filter.mp h2.1
    have hmap : x ∈ s.map pyLower := pyStrip_subset h1.1
    obtain ⟨y, _, hy⟩ := List.mem_map.mp hmap
    refine ⟨?_, ?_, ?_, ?_⟩
    · rw [← hy]
      exact pyLower_idem y
    · simpa using h2.2
    · simpa using h1.2
    · simpa using h3.2
  rcases suffixRewrite_cases n3 with ⟨u, hu, heq⟩ | heq
  · rw [heq] at hc
    rcases List.mem_append.mp hc with h | h
    · exact hn3chars c (hu h)
    · exact hstr c h
  · rw [heq] at hc
    exact hn3chars c hc

theorem normStreet_idem_aux (s : List Char) :
    normStreet (normStreet s) = normStreet s := by
  have hch := normStreet_chars (s := s)
  have h0 : (normStreet s).map pyLower = normStreet s := by
    rw [show (normStreet s).map pyLower = (normStreet s).map id from
      List.map_congr_left (fun a ha => (hch a ha).1), List.map_id]
  have h1 : pyStrip (normStreet s) = normStreet s :=
    pyStrip_eq_self_of_no_space (fun c hc => (hch c hc).2.1)
  have h2 : (normStreet s).filter (fun c => !(c == '.')) = normStreet s :=
    List.filter_eq_self.mpr (fun a ha => by simp [(hch a ha).2.2.1])
  have h3 : (normStreet s).filter (fun c => !pyIsSpace c) = normStreet s :=
    List.filter_eq_self.mpr (fun a ha => by simp [(hch a ha).2.1])
  have h4 : (normStreet s).filter (fun c => !(c == '-')) = normStreet s :=
    List.filter_eq_self.mpr (fun a ha => by simp [(hch a ha).2.2.2])
  have hstep : normStreet (normStreet s) =
      suffixRewrite ((((pyStrip ((normStreet s).map pyLower)).filter
          (fun c => !(c == '.'))).filter (fun c => !pyIsSpace c)).filter
        (fun c => !(c == '-'))) := rfl
  rw [hstep, h0, h1, h2, h3, h4]
  have hfinal : normStreet s =
      suffixRewrite ((((pyStrip (s.map pyLower)).filter
          (fun c => !(c == '.'))).filter (fun c => !pyIsSpace c)).filter
        (fun c => !(c == '-'))) := rfl
  rw [hfinal]
  exact suffixRewrite_idem _

/-! ## coverageLoop lemmas (C10 core) -/

theorem coverageLoop_total (find : String → List String) :
    ∀ cats : List String,
      (coverageLoop find cats).2 + (coverageLoop find cats).1.length = cats.length := by
  intro cats
  induction cats with
  | nil => rfl
  | cons cat rest ih =>
    unfold coverageLoop
    by_cases hc : find cat = []
    · rw [if_pos hc]
      simp only [List.length_cons]
      omega
    · rw [if_neg hc]
      simp only [List.length_cons]
      omega

theorem coverageLoop_gaps (find : String → List String) :
    ∀ cats : List String,
      (coverageLoop find cats).1.map (fun g => g.category) =
        cats.filter (fun c => decide (find c = [])) := by
  intro cats
  induction cats with
  | nil => rfl
  | cons cat rest ih =>
    unfold coverageLoop
    by_cases hc : find cat = []
    · rw [if_pos hc]
      simp only [List.map_cons, ih, List.filter_cons]
      simp [hc]
    · rw [if_neg hc]
      simp only [ih, List.filter_cons]
      simp [hc]

theorem coverageLoop_covered (find : String → List String) :
    ∀ cats : List String,
      (coverageLoop find cats).2 =
        (cats.filter (fun c => !decide (find c = []))).length := by
  intro cats
  induction cats with
  | nil => rfl
  | cons cat rest ih =>
    unfold coverageLoop
    by_cases hc : find cat = []
    · rw [if_pos hc]
      simp only [ih, List.filter_cons]
      simp [hc]
    · rw [if_neg hc]
      simp only [ih, List.filter_cons]
      simp [hc]

/-! ## Key-set lemmas for the diagnostics (C8 core) -/

theorem mem_keys_addEntry {m : List (List Char × List String)} {k x : List Char}
    {v : String} (h : x ∈ (addEntry m k v).map Prod.fst) :
    x ∈ m.map Prod.fst ∨ x = k := by
  unfold addEntry at h
  by_cases hc : m.any (fun e => e.1 == k) = true
  · rw [if_pos hc] at h
    obtain ⟨e, he, hee⟩ := List.mem_map.mp h
    obtain ⟨f, hf, hfe⟩ := List.mem_map.mp he
    left
    rw [List.mem_map]
    refine ⟨f, hf, ?_⟩
    rw [← hee, ← hfe]
    by_cases hfk : (f.1 == k) = true
    · rw [if_pos hfk]
    · rw [if_neg hfk]
  · rw [if_neg hc] at h
    rw [List.map_append, List.mem_append] at h
    rcases h with h | h
    · exact Or.inl h
    · right
      simpa using h

theorem areasFold_no_plz_key (st : SepTable) (props : List (List Char))
    (name : String) {area : List Char} (hplz : isJustPlzB area = true) :
    ∀ (areas : List (List Char)) (acc : List (List Char × List String)),
      area ∉ acc.map Prod.fst →
      area ∉ (areas.foldl
        (fun acc2 a =>
          if !matchesAnyProp st props a && !isJustPlzB a then addEntry acc2 a name
          else acc2) acc).map Prod.fst := by
  intro areas
  induction areas with
  | nil => intro acc hacc; exact hacc
  | cons a rest ih =>
    intro acc hacc
    simp only [List.foldl_cons]
    by_cases hc : (!matchesAnyProp st props a && !isJustPlzB a) = true
    · rw [if_pos hc]
      apply ih
      intro hmem
      rcases mem_keys_addEntry hmem with h | h
      · exact hacc h
      · rw [h] at hplz
        have : isJustPlzB a = false := by
          rcases Bool.and_eq_true_iff.mp hc with ⟨_, h2⟩
          simpa using h2
        rw [hplz] at this
        cases this
    · rw [if_neg hc]
      exact ih acc hacc

theorem findMissingAux_no_plz_key (st : SepTable) (props : List (List Char))
    {area : List Char} (hplz : isJustPlzB area = true) :
    ∀ (craftsmen : List (String × Craftsman))
      (acc : List (List Char × List String)), area ∉ acc.map Prod.fst →
      area ∉ (craftsmen.foldl
        (fun acc nc =>
          if nc.2.service_areas_plz.isEmpty then acc
          else
            nc.2.service_areas_plz.foldl
              (fun acc2 a =>
                if !matchesAnyProp st props a && !isJustPlzB a then
                  addEntry acc2 a nc.1
                else acc2)
              acc) acc).map Prod.fst := by
  intro craftsmen
  induction craftsmen with
  | nil => intro acc hacc; exact hacc
  | cons nc rest ih =>
    intro acc hacc
    simp only [List.foldl_cons]
    by_cases hc : nc.2.service_areas_plz.isEmpty = true
    · rw [if_pos hc]
      exact ih acc hacc
    · rw [if_neg hc]
      exact ih _ (areasFold_no_plz_key st props nc.1 hplz _ acc hacc)

theorem isJustPlz_of_digits {area : List Char} (hne : area ≠ [])
    (hlen : area.length ≤ 5) (hd : ∀ c ∈ area, c.isDigit = true) :
    isJustPlzB area = true := by
  have hmap : area.map pyLower = area := by
    rw [show area.map pyLower = area.map id from
      List.map_congr_left (fun a ha => pyLower_of_isDigit (hd a ha)), List.map_id]
  have hstrip : pyStrip area = area :=
    pyStrip_eq_self_of_no_space (fun c hc => not_space_of_isDigit (hd c hc))
  unfold isJustPlzB
  rw [hmap, hstrip]
  have h1 : (decide (area.length ≤ 5)) = true := by simpa using hlen
  have h2 : area.isEmpty = false := by
    cases area with
    | nil => exact absurd rfl hne
    | cons a t => rfl
  have h3 : area.all Char.isDigit = true := List.all_eq_true.mpr hd
  simp only [h1, h2, h3]
  rfl

/-! ## All numbers returned without a range match are short (C3 core) -/

theorem slashCollect_mem_le {text m : List Char} (h : m ∈ slashCollect text) :
    m.length ≤ 3 := by
  unfold slashCollect at h
  rw [List.mem_flatten] at h
  obtain ⟨l, hl, hml⟩ := h
  rw [List.mem_map] at hl
  obtain ⟨p, _, hpl⟩ := hl
  rw [← hpl] at hml
  unfold shortNums at hml
  have := (List.mem_filter.mp hml).2
  simpa using this

theorem extract_mem_le_three {st : SepTable} {text m : List Char}
    (hr : findRange text = none) (hm : m ∈ extract st text) : m.length ≤ 3 := by
  unfold extract at hm
  rw [hr] at hm
  by_cases hsl : ((if text.contains '/' then slashCollect text else [])).isEmpty = true
  · have hsl2 : (!(if text.contains '/' then slashCollect text else []).isEmpty) = false := by
      rw [hsl]
      rfl
    simp only [hsl2, Bool.false_eq_true, if_false] at hm
    cases hlp : learnedLoop (sortDesc st) text with
    | some res =>
      rw [hlp] at hm
      obtain ⟨sep, hres⟩ := learnedLoop_some_shape (sortDesc st) res hlp
      rw [hres, List.mem_dedup] at hm
      exact (partFirsts_mem hm).1
    | none =>
      rw [hlp] at hm
      rw [List.mem_dedup] at hm
      unfold shortNums at hm
      have := (List.mem_filter.mp hm).2
      simpa using this
  · have hsl2 : (!(if text.contains '/' then slashCollect text else []).isEmpty) = true := by
      cases hx : ((if text.contains '/' then slashCollect text else [])).isEmpty
      · rfl
      · exact absurd hx hsl
    simp only [hsl2, if_true] at hm
    rw [List.mem_dedup] at hm
    by_cases hct : text.contains '/' = true
    · rw [if_pos hct] at hm
      exact slashCollect_mem_le hm
    · rw [if_neg hct] at hm
      cases hm

/-! # Claim theorems -/

/-- C1: the spec's end-to-end test expects `analyze_property("Badenerstr. 727")`
to report exactly one gap for "Elektriker" (727 ∉ {717, 719, 721}).  The code
does the opposite: `extract_street_name` strips the house number (there is no
postal code in the address), so the priority-1 containment check
`street_name in service_area` succeeds on `"Badenerstr."` alone, provider X is
accepted, and the analysis reports zero gaps and one covered category — for
every learner state `st`, in particular the one trained on this corpus. -/
theorem c1_analyze_badenerstr727_no_gap (st : SepTable) :
    (gsAnalyzeProperty st ["Elektriker"]
      [("X", Craftsman.mk ["Elektriker"] ["Badenerstr. 717/719/721, 8048 Zürich".data])]
      "Badenerstr. 727".data).gaps = [] ∧
    (gsAnalyzeProperty st ["Elektriker"]
      [("X", Craftsman.mk ["Elektriker"] ["Badenerstr. 717/719/721, 8048 Zürich".data])]
      "Badenerstr. 727".data).covered_categories = 1 := by
  constructor <;> rfl

/-- C2 (counterexample): in craftsman_coverage_analyzer.py a provider with an
empty `service_areas` list is NEVER included — `any` over an empty list is
false — so the universal-coverage sentinel claim fails for that
implementation of `find_craftsmen_for_property_and_category`. -/
theorem c2_counterexample_simple_analyzer :
    "X" ∉ simpleFindCraftsmen [("X", SimpleCraftsman.mk ["Elektriker"] [])]
        "Badenerstr. 727".data "Elektriker" ∧
    "Elektriker" ∈ (SimpleCraftsman.mk ["Elektriker"] ([] : List (List Char))).categories ∧
    (SimpleCraftsman.mk ["Elektriker"] ([] : List (List Char))).service_areas = [] := by
  decide

/-- C2 (amended): in google_sheets_analyzer.py's
`find_craftsmen_for_property_and_category`, a craftsman with an empty
`service_areas_plz` list and a matching category is always included, for
every property address and every learner state. -/
theorem c2_empty_serviceAreas_included_gs (st : SepTable)
    (craftsmen : List (String × Craftsman)) (addr : List Char) (cat : String)
    (name : String) (c : Craftsman) (hmem : (name, c) ∈ craftsmen)
    (hempty : c.service_areas_plz = []) (hcat : cat ∈ c.categories) :
    name ∈ gsFindCraftsmen st craftsmen addr cat := by
  simp only [gsFindCraftsmen, List.mem_map]
  refine ⟨(name, c), ?_, rfl⟩
  simp only [List.mem_filter]
  refine ⟨hmem, ?_⟩
  simp only [Bool.and_eq_true]
  constructor
  · exact List.elem_iff.mpr hcat
  · simp [servesB, hempty]

/-- C2 (witness): concrete instantiation of the amended claim. -/
theorem c2_witness :
    ("X", Craftsman.mk ["Elektriker"] []) ∈
        [("X", Craftsman.mk ["Elektriker"] [])] ∧
    "X" ∈ gsFindCraftsmen [] [("X", Craftsman.mk ["Elektriker"] [])]
        "Haus 1".data "Elektriker" :=
  ⟨by simp,
   c2_empty_serviceAreas_included_gs [] [("X", Craftsman.mk ["Elektriker"] [])]
     "Haus 1".data "Elektriker" "X" (Craftsman.mk ["Elektriker"] [])
     (by simp) rfl (by simp)⟩

/-- C3 (counterexample): when the range rule fires, `extract_numbers` returns
strings longer than 3 digits — e.g. on "1000-1001" it returns
`["1000", "1001"]` — so the global "at most 3 digits" bound is false. -/
theorem c3_counterexample_range_four_digits :
    extract [] "1000-1001".data = ["1000".data, "1001".data] ∧
    ¬ ("1000".data.length ≤ 3) := by
  decide

/-- C3 (amended): for every text on which the range rule does NOT fire
(no dash-joined integer pair), every string returned by
`FormatLearner.extract_numbers` has at most 3 digits, for every state of the
learned separator table. -/
theorem c3_no_range_all_short (st : SepTable) (text : List Char)
    (hr : findRange text = none) : ∀ m ∈ extract st text, m.length ≤ 3 :=
  fun _ hm => extract_mem_le_three hr hm

/-- C3 (witness): concrete instantiation of the amended claim. -/
theorem c3_witness :
    findRange "a 12/3456".data = none ∧
    ∀ m ∈ extract [] "a 12/3456".data, m.length ≤ 3 :=
  ⟨by decide, c3_no_range_all_short [] "a 12/3456".data (by decide)⟩

/-- C4: for every text containing '/' but no dash-joined integer pair, the
result of `extract_numbers` is the same for any two reachable states of the
learned separator table (`validTable` characterizes them, see
`learnFromServiceAreas_valid`), and equals — as the deduplicated list of —
the union over the '/'-split fragments of all ≤3-digit numeric substrings
(`slashCollect`). -/
theorem c4_slash_rule_noninterference (st1 st2 : SepTable) (text : List Char)
    (hv1 : validTable st1) (hv2 : validTable st2)
    (hsl : text.contains '/' = true) (hr : findRange text = none) :
    extract st1 text = extract st2 text ∧
    extract st1 text = (slashCollect text).dedup :=
  ⟨(extract_slash_eq hv1 hsl hr).trans (extract_slash_eq hv2 hsl hr).symm,
   extract_slash_eq hv1 hsl hr⟩

/-- C4 (witness): the spec's own example, with two different table states. -/
theorem c4_witness :
    validTable ([] : SepTable) ∧ validTable [(", ".data, 1)] ∧
    ("Holeoholzweg 61/63/65/67".data.contains '/') = true ∧
    findRange "Holeoholzweg 61/63/65/67".data = none ∧
    (extract [] "Holeoholzweg 61/63/65/67".data =
        extract [(", ".data, 1)] "Holeoholzweg 61/63/65/67".data ∧
     extract [] "Holeoholzweg 61/63/65/67".data =
        (slashCollect "Holeoholzweg 61/63/65/67".data).dedup) :=
  ⟨by unfold validTable; decide, by unfold validTable; decide, by decide,
   by decide,
   c4_slash_rule_noninterference [] [(", ".data, 1)]
     "Holeoholzweg 61/63/65/67".data (by unfold validTable; decide)
     (by unfold validTable; decide) (by decide) (by decide)⟩

/-- C5: on every descriptor of the form "A N1-N2" — digit-free text `A`, a
digit run, a dash-like glyph with optional surrounding whitespace, a digit
run — `extract_numbers` returns exactly the stringified inclusive range
`[N1..N2]`, for every learner state. -/
theorem c5_range_rule (st : SepTable) (A d1 w1 w2 d2 : List Char) (g : Char)
    (hA : ∀ c ∈ A, c.isDigit = false)
    (hd1 : d1 ≠ []) (hd1d : ∀ c ∈ d1, c.isDigit = true)
    (hw1 : ∀ c ∈ w1, pyIsSpace c = true)
    (hg : isDashC g = true)
    (hw2 : ∀ c ∈ w2, pyIsSpace c = true)
    (hd2 : d2 ≠ []) (hd2d : ∀ c ∈ d2, c.isDigit = true) :
    extract st (A ++ d1 ++ (w1 ++ g :: (w2 ++ d2))) =
      (List.range' (digitsToNat d1) (digitsToNat d2 + 1 - digitsToNat d1)).map
        (fun n => (Nat.repr n).data) := by
  unfold extract
  rw [findRange_form hA hd1 hd1d hw1 hg hw2 hd2 hd2d]

/-- C5 (witness): the spec's example "Im Struppen 1-13". -/
theorem c5_witness :
    (∀ c ∈ "Im Struppen ".data, c.isDigit = false) ∧
    extract [] ("Im Struppen ".data ++ "1".data ++ ([] ++ '-' :: ([] ++ "13".data))) =
      (List.range' (digitsToNat "1".data)
          (digitsToNat "13".data + 1 - digitsToNat "1".data)).map
        (fun n => (Nat.repr n).data) :=
  ⟨by decide,
   c5_range_rule [] "Im Struppen ".data "1".data [] [] "13".data '-'
     (by decide) (by decide) (by decide) (by decide) (by decide) (by decide)
     (by decide) (by decide)⟩

/-- C6: on a text with no range match and no '/', if the frequency-sorted
separator table has a first entry `e` that occurs in the text and is not
"/" (i.e. the most frequent learned separator present), and splitting on it
yields a non-empty list of per-part first ≤3-digit numbers, then
`extract_numbers` returns exactly that list (deduplicated). -/
theorem c6_learned_separator_rule (st : SepTable) (text : List Char)
    (e : List Char × Nat) (hr : findRange text = none)
    (hsl : text.contains '/' = false)
    (hfind : (sortDesc st).find?
        (fun x => substrB x.1 text && !(x.1 == ['/'])) = some e)
    (hnonempty : partFirsts e.1 text ≠ []) :
    extract st text = (partFirsts e.1 text).dedup := by
  unfold extract
  rw [hr]
  simp only [hsl, Bool.false_eq_true, if_false, List.isEmpty_nil, Bool.not_true]
  rw [learnedLoop_first_found (sortDesc st) hfind hnonempty]

/-- C6 (witness): a concrete learned table `{", ": 1}` and text "Haus 3, 5". -/
theorem c6_witness :
    findRange "Haus 3, 5".data = none ∧
    "Haus 3, 5".data.contains '/' = false ∧
    (sortDesc [(", ".data, 1)]).find?
        (fun x => substrB x.1 "Haus 3, 5".data && !(x.1 == ['/'])) =
      some (", ".data, 1) ∧
    partFirsts ", ".data "Haus 3, 5".data ≠ [] ∧
    extract [(", ".data, 1)] "Haus 3, 5".data =
      (partFirsts ", ".data "Haus 3, 5".data).dedup :=
  ⟨by decide, by decide, by decide, by decide,
   c6_learned_separator_rule [(", ".data, 1)] "Haus 3, 5".data (", ".data, 1)
     (by decide) (by decide) (by decide) (by decide)⟩

/-- C7 (counterexample): `AdaptiveMatcher._streets_match` uses normalized
EQUALITY only — it rejects "Calanda" vs "Calandastr" although both
normalized forms have length ≥ 4 and one is a prefix of the other, so the
claim that the prefix rule applies wherever streets are compared (including
`match_property`'s comparison, which calls `_streets_match`) is false. -/
theorem c7_counterexample_streets_match :
    streetsMatch "Calanda".data "Calandastr".data = false ∧
    4 ≤ (normStreet "Calanda".data).length ∧
    4 ≤ (normStreet "Calandastr".data).length ∧
    (normStreet "Calanda".data).isPrefixOf (normStreet "Calandastr".data) = true := by
  decide

/-- C7 (amended): the length-≥4 prefix rule does hold in the inline street
comparison of `find_craftsmen_for_property_and_category`
(google_sheets_analyzer.py, the `gsStreetMatch` stage): whenever both
normalized forms have length ≥ 4 and one is a prefix of the other, the
streets are treated as matching. -/
theorem c7_find_craftsmen_prefix_match (p s : List Char) (hs : s ≠ [])
    (h1 : 4 ≤ (normStreet s).length) (h2 : 4 ≤ (normStreet p).length)
    (h3 : ((normStreet p).isPrefixOf (normStreet s) ||
        (normStreet s).isPrefixOf (normStreet p)) = true) :
    gsStreetMatch p s = true := by
  unfold gsStreetMatch
  have hse : s.isEmpty = false := by
    cases s with
    | nil => exact absurd rfl hs
    | cons a t => rfl
  rw [hse]
  simp only [Bool.false_eq_true, if_false]
  have hpre : ((decide (4 ≤ (normStreet s).length) &&
      decide (4 ≤ (normStreet p).length)) &&
      ((normStreet p).isPrefixOf (normStreet s) ||
       (normStreet s).isPrefixOf (normStreet p))) = true := by
    simp [h1, h2, h3]
  simp [hpre]

/-- C7 (witness): concrete instantiation of the amended claim. -/
theorem c7_witness :
    ("Calanda".data ≠ ([] : List Char)) ∧
    gsStreetMatch "Calandastr".data "Calanda".data = true :=
  ⟨by decide,
   c7_find_craftsmen_prefix_match "Calandastr".data "Calanda".data (by decide)
     (by decide) (by decide) (by decide)⟩

/-- C8 (counterexample): `find_unmatched_service_areas` has NO postal-code
filter: a craftsman whose only descriptor is the bare postal code "8048"
(which matches no property) is reported under that purely-numeric key. -/
theorem c8_counterexample_unmatched_reports_postal :
    "8048".data ∈ (findUnmatchedServiceAreas [] []
        [("X", Craftsman.mk ["Elektriker"] ["8048".data])]).map Prod.fst ∧
    "8048".data.length ≤ 5 ∧ "8048".data.all Char.isDigit = true := by
  decide

/-- C8 (amended): the postal-code filter lives in `find_missing_properties`:
that diagnostic never maps an all-numeric descriptor of at most 5 characters
to any list of provider names. -/
theorem c8_missing_properties_filters_postal (st : SepTable)
    (props : List (List Char)) (craftsmen : List (String × Craftsman))
    (area : List Char) (hne : area ≠ []) (hlen : area.length ≤ 5)
    (hd : ∀ c ∈ area, c.isDigit = true) :
    area ∉ (findMissingProperties st props craftsmen).map Prod.fst := by
  have hplz := isJustPlz_of_digits hne hlen hd
  intro hmem
  have hkey : area ∉ (findMissingAux st props craftsmen).map Prod.fst := by
    unfold findMissingAux
    exact findMissingAux_no_plz_key st props hplz craftsmen [] (by simp)
  apply hkey
  unfold findMissingProperties at hmem
  obtain ⟨y, hy, hyx⟩ := List.mem_map.mp hmem
  obtain ⟨e, he, hey⟩ := List.mem_map.mp hy
  rw [List.mem_map]
  refine ⟨e, he, ?_⟩
  rw [← hyx, ← hey]

/-- C8 (witness): concrete instantiation of the amended claim. -/
theorem c8_witness :
    ("8048".data ≠ ([] : List Char)) ∧ "8048".data.length ≤ 5 ∧
    (∀ c ∈ "8048".data, c.isDigit = true) ∧
    "8048".data ∉ (findMissingProperties [] []
        [("X", Craftsman.mk ["Elektriker"] ["8048".data])]).map Prod.fst :=
  ⟨by decide, by decide, by decide,
   c8_missing_properties_filters_postal [] []
     [("X", Craftsman.mk ["Elektriker"] ["8048".data])] "8048".data
     (by decide) (by decide) (by decide)⟩

/-- C9: `AdaptiveMatcher._normalize_street` (lowercase, strip periods,
whitespace and hyphens, rewrite a trailing strasse/straße to str) is
idempotent. -/
theorem c9_normalize_street_idempotent (x : List Char) :
    normStreet (normStreet x) = normStreet x :=
  normStreet_idem_aux x

/-- C10: for every learner state, craftsman corpus, category list and
property address, both `analyze_property` implementations return a record
with `total_categories` = length of the configured list,
`covered_categories` + number of gaps = `total_categories`, the gap list
(in configured order) exactly the categories whose `find_craftsmen` result
is empty, and `covered_categories` counting exactly the others. -/
theorem c10_analyze_property_invariants (st : SepTable)
    (craftsmen : List (String × Craftsman))
    (data : List (String × SimpleCraftsman)) (categories : List String)
    (addr : List Char) :
    ((gsAnalyzeProperty st categories craftsmen addr).total_categories =
        categories.length ∧
     (gsAnalyzeProperty st categories craftsmen addr).covered_categories +
        (gsAnalyzeProperty st categories craftsmen addr).gaps.length =
          categories.length ∧
     (gsAnalyzeProperty st categories craftsmen addr).gaps.map
        (fun g => g.category) =
          categories.filter (fun c => decide (gsFindCraftsmen st craftsmen addr c = [])) ∧
     (gsAnalyzeProperty st categories craftsmen addr).covered_categories =
        (categories.filter
          (fun c => !decide (gsFindCraftsmen st craftsmen addr c = []))).length) ∧
    ((simpleAnalyzeProperty categories data addr).total_categories =
        categories.length ∧
     (simpleAnalyzeProperty categories data addr).covered_categories +
        (simpleAnalyzeProperty categories data addr).gaps.length =
          categories.length ∧
     (simpleAnalyzeProperty categories data addr).gaps.map
        (fun g => g.category) =
          categories.filter (fun c => decide (simpleFindCraftsmen data addr c = [])) ∧
     (simpleAnalyzeProperty categories data addr).covered_categories =
        (categories.filter
          (fun c => !decide (simpleFindCraftsmen data addr c = []))).length) := by
  refine ⟨⟨rfl, ?_, ?_, ?_⟩, ⟨rfl, ?_, ?_, ?_⟩⟩
  · exact coverageLoop_total _ categories
  · exact coverageLoop_gaps _ categories
  · exact coverageLoop_covered _ categories
  · exact coverageLoop_total _ categories
  · exact coverageLoop_gaps _ categories
  · exact coverageLoop_covered _ categories
